import Mathlib

/-
  Verification development for the `SimplexTree` component declared in
  `src/math/simplex_tree.h` (a bifiltered simplicial complex stored as a
  simplex tree).  The header includes `simplex_tree.cpp`, which is not among
  the repository sources, so every operation below is modelled from the
  specification's description of the component (the header's own comments
  agree with it).  The simplex tree is embedded shallowly: each node of the
  tree is identified with its root-to-node label path (the sorted vertex set
  of the simplex it represents), and the tree itself is the list of those
  nodes kept in the order a per-dimension, left-to-right depth-first
  traversal enumerates them (dimension ascending, and lexicographic on the
  label path within one dimension).
-/

namespace Rivet

/-- Modelled from the spec: one node of the simplex tree (spec section 3,
"Simplex node"); the implementation file `simplex_tree.cpp` included by
`src/math/simplex_tree.h` is missing from the sources.  A node carries the
sorted vertex-label path identifying its simplex, the birth multi-index
`(time, dist)` stored as integer positions into the registry lists, and the
global ordinal `gi`, which is `-1` until re-indexing assigns it. -/
structure STEntry where
  verts : List Nat
  time : Int
  dist : Int
  gi : Int
  deriving DecidableEq, Repr

/-- Modelled from the spec: the `SimplexTree` state (spec sections 2 and 3);
`simplex_tree.cpp` is missing from the sources.  `entries` is the tree
flattened into per-dimension depth-first order, `dist_list` and `time_list`
are the sorted deduplicated registry lists of filtration values, `dirty`
is the stale-ordinal flag set by every mutation and cleared by re-indexing
(spec section 9, "Global mutable current re-indexing state"), and
`verbosity` is the constructor's diagnostic-output parameter. -/
structure SimplexTree where
  entries : List STEntry
  dist_list : List Rat
  time_list : List Rat
  dirty : Bool
  verbosity : Int
  deriving DecidableEq, Repr

/-- Strict lexicographic comparison of label paths of equal dimension. -/
def lexLt : List Nat → List Nat → Bool
  | _, [] => false
  | [], _ :: _ => true
  | x :: xs, y :: ys => if x < y then true else if x = y then lexLt xs ys else false

/-- The order in which the per-dimension depth-first traversal of the tree
visits label paths: shorter paths (lower-dimensional simplices) first, and
lexicographically within one dimension. -/
def keyLt (a b : List Nat) : Bool :=
  if a.length < b.length then true
  else if a.length = b.length then lexLt a b
  else false

/-- Modelled from the spec: the coordinatewise-minimum birth update applied
when a simplex being inserted already exists (spec section 4.2);
`simplex_tree.cpp` is missing from the sources. -/
def mergeEntry (e : STEntry) (t d : Int) : STEntry :=
  ⟨e.verts, min e.time t, min e.dist d, e.gi⟩

/-- Modelled from the spec: creation or birth-update of the single node for
key `k` (spec section 4.2, "descends into an existing child or creates
one"); `simplex_tree.cpp` is missing from the sources.  The flattened tree
is kept in `keyLt` order, so the node is merged in place or inserted at its
traversal position, with ordinal `-1` until re-indexing. -/
def upsert (k : List Nat) (t d : Int) : List STEntry → List STEntry
  | [] => [⟨k, t, d, -1⟩]
  | e :: es =>
    if e.verts = k then mergeEntry e t d :: es
    else if keyLt k e.verts then ⟨k, t, d, -1⟩ :: e :: es
    else e :: upsert k t d es

/-- Insertion sort step keeping the list strictly sorted (duplicates dropped). -/
def insSorted {α : Type} [LinearOrder α] (x : α) : List α → List α
  | [] => [x]
  | y :: ys => if x < y then x :: y :: ys else if x = y then y :: ys else y :: insSorted x ys

/-- Sort a list and drop duplicates (spec section 4.2 sorts the vertex set;
spec section 4.1 keeps the registry lists sorted and deduplicated). -/
def sortDedup {α : Type} [LinearOrder α] (vs : List α) : List α :=
  vs.foldr insSorted []

/-- All faces of a simplex given by a sorted vertex list: the non-empty
sublists of the list, the simplex itself included. -/
def facesOf (s : List Nat) : List (List Nat) :=
  s.sublists.filter (fun f => !f.isEmpty)

/-- Modelled from the spec: `SimplexTree::add_simplex` declared at
`src/math/simplex_tree.h:31` ("adds a simplex (and its faces) to the
SimplexTree"); its body in `simplex_tree.cpp` is missing from the sources.
Following spec section 4.2, the vertex set is sorted, and every non-empty
subset is created or birth-updated with the coordinatewise-minimum rule.
The mutation marks the stored ordinals stale. -/
def add_simplex (vs : List Nat) (t d : Int) (T : SimplexTree) : SimplexTree :=
  { T with
    entries := (facesOf (sortDedup vs)).foldl (fun es f => upsert f t d es) T.entries,
    dirty := true }

/-- Assign consecutive global ordinals starting at `i` along the flattened
traversal order. -/
def reindexFrom : Nat → List STEntry → List STEntry
  | _, [] => []
  | i, e :: es => ⟨e.verts, e.time, e.dist, Int.ofNat i⟩ :: reindexFrom (i + 1) es

/-- Modelled from the spec: `SimplexTree::update_global_indexes` declared at
`src/math/simplex_tree.h:33`; its body in `simplex_tree.cpp` is missing from
the sources.  Following spec section 4.3, one dimension-by-dimension
depth-first traversal assigns sequentially increasing ordinals (the
flattened `entries` list is exactly that traversal order), and the
stale-ordinal flag is cleared. -/
def update_global_indexes (T : SimplexTree) : SimplexTree :=
  { T with entries := reindexFrom 0 T.entries, dirty := false }

/-- Find the node of the tree whose label path is `k`. -/
def findKey (es : List STEntry) (k : List Nat) : Option STEntry :=
  es.find? (fun e => e.verts == k)

/-- Walk the tree along the sorted label path `k` and return its node. -/
def find_entry (T : SimplexTree) (k : List Nat) : Option STEntry :=
  findKey T.entries k

/-- Modelled from the spec: `SimplexTree::find_index` declared at
`src/math/simplex_tree.h:48` ("given a sorted vector of vertex indexes,
return the global index of the corresponding simplex (or -1 if it doesn't
exist)"); its body in `simplex_tree.cpp` is missing from the sources. -/
def find_index (T : SimplexTree) (vs : List Nat) : Int :=
  match find_entry T vs with
  | some e => e.gi
  | none => -1

/-- Modelled from the spec: `SimplexTree::find_vertices` declared at
`src/math/simplex_tree.h:47` ("given a global index, return (a vector
containing) the vertices of the simplex"); its body in `simplex_tree.cpp`
is missing from the sources.  Per spec section 4.2 it requires current
ordinals and fails with a defined error on a missing ordinal. -/
def find_vertices (T : SimplexTree) (i : Int) : Option (List Nat) :=
  (T.entries.find? (fun e => e.gi == i)).map (fun e => e.verts)

/-- Return type of `get_simplex_data` (forward-declared as `SimplexData` at
`src/math/simplex_tree.h:23`): the birth multi-index and the dimension of a
simplex. -/
structure SimplexData where
  time : Int
  dist : Int
  dim : Nat
  deriving DecidableEq, Repr

/-- Modelled from the spec: `SimplexTree::get_simplex_data` declared at
`src/math/simplex_tree.h:50`; its body in `simplex_tree.cpp` is missing
from the sources.  It reports the `(time, dist)` multi-index and dimension
of the simplex with the given global index. -/
def get_simplex_data (T : SimplexTree) (i : Int) : Option SimplexData :=
  (T.entries.find? (fun e => e.gi == i)).map (fun e => ⟨e.time, e.dist, e.verts.length - 1⟩)

/-- Modelled from the spec: `SimplexTree::get_num_simplices` declared at
`src/math/simplex_tree.h:54`; its body in `simplex_tree.cpp` is missing
from the sources. -/
def get_num_simplices (T : SimplexTree) : Nat :=
  T.entries.length

/-- Modelled from the spec: `SimplexTree::get_num_dists` declared at
`src/math/simplex_tree.h:52`; its body in `simplex_tree.cpp` is missing
from the sources. -/
def get_num_dists (T : SimplexTree) : Nat :=
  T.dist_list.length

/-- Modelled from the spec: `SimplexTree::get_num_times` declared at
`src/math/simplex_tree.h:53`; its body in `simplex_tree.cpp` is missing
from the sources. -/
def get_num_times (T : SimplexTree) : Nat :=
  T.time_list.length

/-- Position of `x` in the tail of a registry list whose first element sits
at position `i`, or the not-found sentinel `-1`. -/
def idxFrom (x : Rat) : Nat → List Rat → Int
  | _, [] => -1
  | i, y :: ys => if y = x then Int.ofNat i else idxFrom x (i + 1) ys

/-- Position of a value in a registry list, or the not-found sentinel `-1`. -/
def idxSentinel (l : List Rat) (x : Rat) : Int :=
  idxFrom x 0 l

/-- Modelled from the spec: `SimplexTree::dist_index` declared at
`src/math/simplex_tree.h:35` ("returns the index of a distance value, or -1
if not found"); its body in `simplex_tree.cpp` is missing from the
sources. -/
def dist_index (T : SimplexTree) (x : Rat) : Int :=
  idxSentinel T.dist_list x

/-- Modelled from the spec: `SimplexTree::time_index` declared at
`src/math/simplex_tree.h:38` ("returns the index of a time value, or -1 if
not found"); its body in `simplex_tree.cpp` is missing from the sources. -/
def time_index (T : SimplexTree) (x : Rat) : Int :=
  idxSentinel T.time_list x

/-- Modelled from the spec: `SimplexTree::get_dist` declared at
`src/math/simplex_tree.h:36`; its body in `simplex_tree.cpp` is missing
from the sources.  Per spec section 4.1, an out-of-range index fails with a
defined error rather than returning an arbitrary value. -/
def get_dist (T : SimplexTree) (i : Int) : Option Rat :=
  if i < 0 then none else T.dist_list[i.toNat]?

/-- Modelled from the spec: `SimplexTree::get_time` declared at
`src/math/simplex_tree.h:39`; its body in `simplex_tree.cpp` is missing
from the sources. -/
def get_time (T : SimplexTree) (i : Int) : Option Rat :=
  if i < 0 then none else T.time_list[i.toNat]?

/-- Modelled from the spec: the `find_nodes` traversal declared at
`src/math/simplex_tree.h:74` underlying all extractors ("recursively search
tree for simplices of specified dimension that exist at specified
multi-index"); its body in `simplex_tree.cpp` is missing from the sources.
`len` is the vertex count (dimension + 1); a simplex is alive at the
multi-index when both birth coordinates are within it. -/
def simplices_at (T : SimplexTree) (len : Nat) (time dist : Int) : List STEntry :=
  T.entries.filter (fun e => e.verts.length == len && decide (e.time ≤ time) && decide (e.dist ≤ dist))

/-- Local dense position of the simplex with label path `k` in a list of
live simplices (rows and columns of the extracted matrices). -/
def idxOfKey (l : List STEntry) (k : List Nat) : Nat :=
  l.findIdx (fun e => e.verts == k)

/-- Whether an integer is a valid position into a registry list of the given
length. -/
def validIdx (len : Nat) (i : Int) : Bool :=
  decide (0 ≤ i) && decide (i < (len : Int))

/-- Modelled from the spec: `SimplexTree::get_boundary_mx` declared at
`src/math/simplex_tree.h:41`; its body in `simplex_tree.cpp` is missing
from the sources.  Following spec sections 4.5 and 7, extraction on stale
ordinals and out-of-range multi-indices is rejected with a defined error;
otherwise one sparse column per live `dim`-simplex lists the local row
positions of its codimension-1 faces (drop the i-th vertex), rows and
columns both in ascending ordinal order. -/
def get_boundary_mx (T : SimplexTree) (time dist : Int) (dim : Nat) : Option (List (List Nat)) :=
  if T.dirty then none
  else if !(validIdx T.time_list.length time && validIdx T.dist_list.length dist) then none
  else
    let cofaces := simplices_at T (dim + 1) time dist
    let faces := simplices_at T dim time dist
    some (cofaces.map (fun e =>
      if dim = 0 then []
      else (List.range (dim + 1)).map (fun i => idxOfKey faces (e.verts.eraseIdx i))))

/-- Modelled from the spec: `SimplexTree::get_merge_mx` declared at
`src/math/simplex_tree.h:42` (the map `[B+C,D]` of inclusions into the
dim-skeleton at the multi-index); its body in `simplex_tree.cpp` is missing
from the sources.  The spec leaves the two upstream multi-indices implicit;
they are taken one step below the requested one in each coordinate.
Columns enumerate `B` then `C`, and each column holds the row of the same
simplex inside `D`; stale ordinals and out-of-range multi-indices are
rejected. -/
def get_merge_mx (T : SimplexTree) (time dist : Int) (dim : Nat) : Option (List (List Nat)) :=
  if T.dirty then none
  else if !(validIdx T.time_list.length time && validIdx T.dist_list.length dist) then none
  else
    let B := simplices_at T (dim + 1) (time - 1) dist
    let C := simplices_at T (dim + 1) time (dist - 1)
    let D := simplices_at T (dim + 1) time dist
    some ((B ++ C).map (fun e => [idxOfKey D e.verts]))

/-- Modelled from the spec: `SimplexTree::get_split_mx` declared at
`src/math/simplex_tree.h:43` (the map `[A,B+C]` for the dim-skeleton at the
multi-index); its body in `simplex_tree.cpp` is missing from the sources.
Rows enumerate `A`, columns enumerate `B` then `C`, and each column holds
the row of the same simplex inside `A`; stale ordinals and out-of-range
multi-indices are rejected. -/
def get_split_mx (T : SimplexTree) (time dist : Int) (dim : Nat) : Option (List (List Nat)) :=
  if T.dirty then none
  else if !(validIdx T.time_list.length time && validIdx T.dist_list.length dist) then none
  else
    let A := simplices_at T (dim + 1) time dist
    let B := simplices_at T (dim + 1) (time - 1) dist
    let C := simplices_at T (dim + 1) time (dist - 1)
    some ((B ++ C).map (fun e => [idxOfKey A e.verts]))

/-- Modelled from the spec: the `SimplexTree(int v)` constructor declared at
`src/math/simplex_tree.h:27`; its body in `simplex_tree.cpp` is missing
from the sources.  A fresh tree has no simplices, empty registry lists and
current (vacuously) ordinals; `v` is the verbosity parameter. -/
def newTree (v : Int) : SimplexTree :=
  ⟨[], [], [], false, v⟩

/-- Largest distance from a new vertex `j` back to the vertices of `s`
(the pairwise distances the builder checks when extending by `j`). -/
def maxDistTo (d : Nat → Nat → Rat) (s : List Nat) (j : Nat) : Rat :=
  s.foldr (fun i acc => max (d i j) acc) 0

/-- Largest time value among the vertices of a non-empty simplex. -/
def maxTimeOf (time : Nat → Rat) : List Nat → Rat
  | [] => 0
  | v :: vs => vs.foldl (fun acc w => max acc (time w)) (time v)

/-- Largest distance from `i` to any vertex in `js`. -/
def maxDistFrom (d : Nat → Nat → Rat) (i : Nat) (js : List Nat) : Rat :=
  js.foldr (fun j acc => max (d i j) acc) 0

/-- Largest pairwise distance among the vertices of a simplex (zero for a
vertex, which has no pairs). -/
def maxPairDist (d : Nat → Nat → Rat) : List Nat → Rat
  | [] => 0
  | i :: is => max (maxDistFrom d i is) (maxPairDist d is)

/-- Modelled from the spec: the extension test of the Vietoris-Rips builder
(spec section 4.4: extend by "every vertex with label greater than the
current maximum label such that all pairwise distances among the extended
set are within the max-distance bound", with the candidate's time within
the time bound); `simplex_tree.cpp` is missing from the sources. -/
def extendOk (time : Nat → Rat) (d : Nat → Nat → Rat) (max_time max_dist : Rat)
    (s : List Nat) (j : Nat) : Bool :=
  s.all (fun i => decide (i < j)) && decide (time j ≤ max_time) &&
    s.all (fun i => decide (d i j ≤ max_dist))

/-- Modelled from the spec: `SimplexTree::build_VR_subtree` declared at
`src/math/simplex_tree.h:68`, the recursive extension step of the
Vietoris-Rips builder (spec section 4.4); its body in `simplex_tree.cpp` is
missing from the sources.  From a candidate simplex `s` with accumulated
birth `(pt, pd)` it produces every extension `s ++ [j]` together with its
birth multi-index (coordinatewise max combine), recursing while the depth
budget lasts.  `fuel` bounds the recursion depth; `n` is always enough
since extensions use strictly increasing labels below `n`. -/
def growVR (n : Nat) (time : Nat → Rat) (d : Nat → Nat → Rat) (max_time max_dist : Rat) :
    Nat → List Nat → Rat → Rat → Nat → List (List Nat × Rat × Rat)
  | 0, _, _, _, _ => []
  | fuel + 1, s, pt, pd, depthLeft =>
    if depthLeft = 0 then []
    else
      ((List.range n).filter (extendOk time d max_time max_dist s)).flatMap
        (fun j =>
          (s ++ [j], max pt (time j), max pd (maxDistTo d s j)) ::
            growVR n time d max_time max_dist fuel (s ++ [j])
              (max pt (time j)) (max pd (maxDistTo d s j)) (depthLeft - 1))

/-- Modelled from the spec: the full list of simplices the Vietoris-Rips
builder produces, with their birth multi-indices as filtration values (spec
section 4.4: one 0-simplex per admissible point with birth `(time, 0)`,
then the recursive extensions); `simplex_tree.cpp` is missing from the
sources. -/
def vrSimplexList (n : Nat) (time : Nat → Rat) (d : Nat → Nat → Rat)
    (max_time max_dist : Rat) (max_dim : Nat) : List (List Nat × Rat × Rat) :=
  ((List.range n).filter (fun v => decide (time v ≤ max_time))).flatMap
    (fun v => ([v], time v, 0) :: growVR n time d max_time max_dist n [v] (time v) 0 max_dim)

/-- Modelled from the spec: `SimplexTree::build_VR_complex` declared at
`src/math/simplex_tree.h:29`; its body in `simplex_tree.cpp` is missing
from the sources.  Following spec section 4.4, the builder registers every
observed birth coordinate in the registry lists, inserts each produced
simplex with its derived birth multi-index, and invokes the global indexer
exactly once at the end.  Points enter as their count `n`, their time
values and the pairwise-distance source. -/
def build_VR_complex (n : Nat) (time : Nat → Rat) (d : Nat → Nat → Rat)
    (max_time max_dist : Rat) (max_dim : Nat) (v : Int) : SimplexTree :=
  let simps := vrSimplexList n time d max_time max_dist max_dim
  let dl := sortDedup (simps.map (fun x => x.2.2))
  let tl := sortDedup (simps.map (fun x => x.2.1))
  update_global_indexes
    (simps.foldl (fun T x => add_simplex x.1 (idxSentinel tl x.2.1) (idxSentinel dl x.2.2) T)
      ⟨[], dl, tl, false, v⟩)

/-- One externally visible mutation of the tree: a direct insertion, a
re-indexing pass, or a run of the Vietoris-Rips builder (the three mutating
operations the header exposes at `src/math/simplex_tree.h:29,31,33`).  The
builder op carries the point count, the point times, the pairwise-distance
source and the bounds; it materializes the whole complex for those
parameters into the object (registry lists included) and ends with one
re-indexing pass, per spec section 4.4. -/
inductive Op where
  | add (vs : List Nat) (t : Int) (d : Int)
  | reindex
  | build (n : Nat) (time : Nat → Rat) (d : Nat → Nat → Rat)
      (max_time max_dist : Rat) (max_dim : Nat)

/-- Whether an operation is a direct insertion — the one mutation that
leaves the stored ordinals stale (`reindex` clears the staleness, and the
builder ends with its own re-indexing pass). -/
def Op.isAdd : Op → Prop
  | .add _ _ _ => True
  | _ => False

/-- Apply one operation to the tree.  The builder keeps the object's
verbosity and replaces its contents with the built complex. -/
def applyOp (T : SimplexTree) : Op → SimplexTree
  | .add vs t d => add_simplex vs t d T
  | .reindex => update_global_indexes T
  | .build n time d mt md mdim => build_VR_complex n time d mt md mdim T.verbosity

/-- Drive a tree through a sequence of operations. -/
def applyOps (ops : List Op) (T : SimplexTree) : SimplexTree :=
  ops.foldl applyOp T

/-- The flattened tree is kept in strict traversal order: every node's path
precedes every later node's path. -/
def SortedKeys (es : List STEntry) : Prop :=
  es.Pairwise (fun a b => keyLt a.verts b.verts = true)

/-- Every node of the tree has a strictly sorted, non-empty label path. -/
def StrictKeys (es : List STEntry) : Prop :=
  ∀ e ∈ es, e.verts.Pairwise (· < ·) ∧ e.verts ≠ []

/-- The node a completed upsert leaves under the given path: a min-merge of
the existing node, or a fresh node carrying the requested birth. -/
def mergeOpt (k : List Nat) (t d : Int) : Option STEntry → STEntry
  | some e => mergeEntry e t d
  | none => ⟨k, t, d, -1⟩

/-- Face-closure invariant of the tree (spec section 3): every non-empty
sublist of a present simplex's sorted vertex list is itself present, with a
birth multi-index coordinatewise at most the simplex's. -/
def CL (T : SimplexTree) : Prop :=
  ∀ k e f, find_entry T k = some e → f ≠ [] → List.Sublist f k →
    ∃ ef, find_entry T f = some ef ∧ ef.time ≤ e.time ∧ ef.dist ≤ e.dist

/-- The three structural invariants of a reachable tree state: traversal
order, well-formed paths, and face closure. -/
def Inv (T : SimplexTree) : Prop :=
  SortedKeys T.entries ∧ StrictKeys T.entries ∧ CL T

/-- The pairwise-distance source of the triangle scenario of spec section 8:
three points with distances `d(0,1) = 1`, `d(0,2) = 1`, `d(1,2) = 1.4`. -/
def triDist (i j : Nat) : Rat :=
  if (i = 0 ∧ j = 1) ∨ (i = 1 ∧ j = 0) then 1
  else if (i = 0 ∧ j = 2) ∨ (i = 2 ∧ j = 0) then 1
  else if (i = 1 ∧ j = 2) ∨ (i = 2 ∧ j = 1) then mkRat 7 5
  else 0

/-- The tree the builder produces on the triangle scenario: three points at
time `0`, maximum distance `1.5`, maximum time `0`. -/
def triTree : SimplexTree :=
  build_VR_complex 3 (fun _ => 0) triDist 0 (mkRat 3 2) 2 0

/-- Unfolding of `lexLt` on two non-empty paths. -/
theorem lexLt_cons_iff {x y : Nat} {xs ys : List Nat} :
    lexLt (x :: xs) (y :: ys) = true ↔ (x < y ∨ (x = y ∧ lexLt xs ys = true)) := by
  simp only [lexLt]
  split_ifs with h1 h2 <;> simp_all

/-- Lexicographic comparison is irreflexive. -/
theorem lexLt_irrefl (l : List Nat) : lexLt l l = false := by
  induction l with
  | nil => rfl
  | cons x xs ih => simp [lexLt, ih]

/-- Lexicographic comparison is transitive. -/
theorem lexLt_trans : ∀ {a b c : List Nat}, lexLt a b = true → lexLt b c = true → lexLt a c = true
  | [], _ :: _, _ :: _, _, _ => by simp [lexLt]
  | _ :: _, _ :: _, [], _, h2 => by simp [lexLt] at h2
  | x :: xs, y :: ys, z :: zs, h1, h2 => by
    rcases lexLt_cons_iff.mp h1 with h | ⟨rfl, h⟩ <;>
      rcases lexLt_cons_iff.mp h2 with h' | ⟨rfl, h'⟩
    · exact lexLt_cons_iff.mpr (Or.inl (Nat.lt_trans h h'))
    · exact lexLt_cons_iff.mpr (Or.inl h)
    · exact lexLt_cons_iff.mpr (Or.inl h')
    · exact lexLt_cons_iff.mpr (Or.inr ⟨rfl, lexLt_trans h h'⟩)

/-- Distinct paths of the same dimension compare one way or the other. -/
theorem lexLt_total : ∀ {a b : List Nat}, a.length = b.length → a ≠ b →
    lexLt a b = true ∨ lexLt b a = true
  | [], [], _, hne => absurd rfl hne
  | [], _ :: _, hlen, _ => by simp at hlen
  | _ :: _, [], hlen, _ => by simp at hlen
  | x :: xs, y :: ys, hlen, hne => by
    have hlen' : xs.length = ys.length := by simpa using hlen
    rcases Nat.lt_trichotomy x y with h | rfl | h
    · exact Or.inl (lexLt_cons_iff.mpr (Or.inl h))
    · have hne' : xs ≠ ys := fun e => hne (by rw [e])
      rcases lexLt_total hlen' hne' with h' | h'
      · exact Or.inl (lexLt_cons_iff.mpr (Or.inr ⟨rfl, h'⟩))
      · exact Or.inr (lexLt_cons_iff.mpr (Or.inr ⟨rfl, h'⟩))
    · exact Or.inr (lexLt_cons_iff.mpr (Or.inl h))

/-- Unfolding of the traversal order `keyLt`. -/
theorem keyLt_iff {a b : List Nat} :
    keyLt a b = true ↔ a.length < b.length ∨ (a.length = b.length ∧ lexLt a b = true) := by
  simp only [keyLt]
  split_ifs with h1 h2 <;> simp_all

/-- The traversal order is irreflexive. -/
theorem keyLt_irrefl (a : List Nat) : keyLt a a = false := by
  have h := lexLt_irrefl a
  simp [keyLt, h]

/-- The traversal order is transitive. -/
theorem keyLt_trans {a b c : List Nat} (h1 : keyLt a b = true) (h2 : keyLt b c = true) :
    keyLt a c = true := by
  rcases keyLt_iff.mp h1 with h | ⟨he, hl⟩ <;> rcases keyLt_iff.mp h2 with h' | ⟨he', hl'⟩
  · exact keyLt_iff.mpr (Or.inl (Nat.lt_trans h h'))
  · exact keyLt_iff.mpr (Or.inl (he' ▸ h))
  · exact keyLt_iff.mpr (Or.inl (he ▸ h'))
  · exact keyLt_iff.mpr (Or.inr ⟨he.trans he', lexLt_trans hl hl'⟩)

/-- Two distinct paths compare one way or the other in the traversal order. -/
theorem keyLt_total {a b : List Nat} (hne : a ≠ b) :
    keyLt a b = true ∨ keyLt b a = true := by
  rcases Nat.lt_trichotomy a.length b.length with h | h | h
  · exact Or.inl (keyLt_iff.mpr (Or.inl h))
  · rcases lexLt_total h hne with h' | h'
    · exact Or.inl (keyLt_iff.mpr (Or.inr ⟨h, h'⟩))
    · exact Or.inr (keyLt_iff.mpr (Or.inr ⟨h.symm, h'⟩))
  · exact Or.inr (keyLt_iff.mpr (Or.inl h))

/-- The traversal order is asymmetric. -/
theorem keyLt_asymm {a b : List Nat} (h : keyLt a b = true) : keyLt b a = false := by
  cases hba : keyLt b a with
  | false => rfl
  | true => exact absurd (keyLt_trans h hba) (by simp [keyLt_irrefl])

/-- An earlier path in the traversal order never has more vertices. -/
theorem keyLt_length_le {a b : List Nat} (h : keyLt a b = true) : a.length ≤ b.length := by
  rcases keyLt_iff.mp h with h' | ⟨h', _⟩
  · exact Nat.le_of_lt h'
  · exact Nat.le_of_eq h'

/-- A path earlier in the traversal order is a different path. -/
theorem keyLt_ne {a b : List Nat} (h : keyLt a b = true) : a ≠ b := by
  intro hh
  subst hh
  simp [keyLt_irrefl] at h

/-- Expansion of `findKey` on a non-empty node list. -/
theorem findKey_cons (e : STEntry) (es : List STEntry) (k : List Nat) :
    findKey (e :: es) k = if e.verts = k then some e else findKey es k := by
  unfold findKey
  by_cases h : e.verts = k
  · rw [List.find?_cons_of_pos _ (by simp [h]), if_pos h]
  · rw [List.find?_cons_of_neg _ (by simp [h]), if_neg h]

/-- A found node's path is the searched path. -/
theorem findKey_verts {es : List STEntry} {k : List Nat} {e : STEntry}
    (h : findKey es k = some e) : e.verts = k := by
  simpa using List.find?_some h

/-- A found node belongs to the tree. -/
theorem findKey_mem {es : List STEntry} {k : List Nat} {e : STEntry}
    (h : findKey es k = some e) : e ∈ es :=
  List.mem_of_find?_eq_some h

/-- A path carried by no node is not found. -/
theorem findKey_eq_none {es : List STEntry} {k : List Nat}
    (h : ∀ x ∈ es, x.verts ≠ k) : findKey es k = none := by
  unfold findKey
  rw [List.find?_eq_none]
  intro x hx
  simp [h x hx]

/-- Every node of an upserted tree either carries the upserted path or was
already present. -/
theorem upsert_mem_cases {k : List Nat} {t d : Int} :
    ∀ {es : List STEntry} {x : STEntry}, x ∈ upsert k t d es → x.verts = k ∨ x ∈ es := by
  intro es
  induction es with
  | nil => intro x hx; simp [upsert] at hx; simp [hx]
  | cons e es ih =>
    intro x hx
    by_cases h1 : e.verts = k
    · rw [upsert, if_pos h1] at hx
      rcases List.mem_cons.mp hx with rfl | hx'
      · exact Or.inl h1
      · exact Or.inr (List.mem_cons_of_mem _ hx')
    · rw [upsert, if_neg h1] at hx
      by_cases h2 : keyLt k e.verts = true
      · rw [if_pos h2] at hx
        rcases List.mem_cons.mp hx with rfl | hx'
        · exact Or.inl rfl
        · exact Or.inr hx'
      · rw [if_neg h2] at hx
        rcases List.mem_cons.mp hx with rfl | hx'
        · exact Or.inr (List.mem_cons_self _ _)
        · rcases ih hx' with h | h
          · exact Or.inl h
          · exact Or.inr (List.mem_cons_of_mem _ h)

/-- Upserting a path keeps the flattened tree in traversal order. -/
theorem upsert_sorted {k : List Nat} {t d : Int} :
    ∀ {es : List STEntry}, SortedKeys es → SortedKeys (upsert k t d es) := by
  intro es
  induction es with
  | nil => intro _; simp [upsert, SortedKeys]
  | cons e es ih =>
    intro hs
    rcases List.pairwise_cons.mp hs with ⟨hhead, htail⟩
    by_cases h1 : e.verts = k
    · rw [upsert, if_pos h1]
      exact List.pairwise_cons.mpr ⟨fun x hx => hhead x hx, htail⟩
    · rw [upsert, if_neg h1]
      by_cases h2 : keyLt k e.verts = true
      · rw [if_pos h2]
        refine List.pairwise_cons.mpr ⟨?_, hs⟩
        intro x hx
        rcases List.mem_cons.mp hx with rfl | hx'
        · exact h2
        · exact keyLt_trans h2 (hhead x hx')
      · rw [if_neg h2]
        refine List.pairwise_cons.mpr ⟨?_, ih htail⟩
        intro x hx
        rcases upsert_mem_cases hx with hv | hx'
        · rw [hv]
          rcases keyLt_total h1 with h | h
          · exact h
          · exact absurd h h2
        · exact hhead x hx'

/-- Looking up the upserted path finds the min-merged or fresh node. -/
theorem findKey_upsert_self {k : List Nat} {t d : Int} :
    ∀ {es : List STEntry}, SortedKeys es →
      findKey (upsert k t d es) k = some (mergeOpt k t d (findKey es k)) := by
  intro es
  induction es with
  | nil => intro _; simp [upsert, findKey_cons, findKey, mergeOpt]
  | cons e es ih =>
    intro hs
    rcases List.pairwise_cons.mp hs with ⟨hhead, htail⟩
    by_cases h1 : e.verts = k
    · rw [upsert, if_pos h1, findKey_cons, findKey_cons, if_pos h1]
      rw [if_pos (show (mergeEntry e t d).verts = k from h1)]
      rfl
    · rw [upsert, if_neg h1]
      by_cases h2 : keyLt k e.verts = true
      · rw [if_pos h2, findKey_cons, if_pos rfl]
        have hnone : findKey (e :: es) k = none := by
          apply findKey_eq_none
          intro x hx
          rcases List.mem_cons.mp hx with rfl | hx'
          · exact h1
          · exact fun hh => absurd (keyLt_trans h2 (hhead x hx')) (by rw [hh]; simp [keyLt_irrefl])
        rw [hnone]
        rfl
      · rw [if_neg h2, findKey_cons, if_neg h1, findKey_cons, if_neg h1]
        exact ih htail

/-- Upserting one path does not disturb lookups of any other path. -/
theorem findKey_upsert_other {k k' : List Nat} {t d : Int} (hne : k' ≠ k) :
    ∀ es : List STEntry, findKey (upsert k t d es) k' = findKey es k' := by
  intro es
  induction es with
  | nil =>
    rw [show upsert k t d [] = [⟨k, t, d, -1⟩] from rfl, findKey_cons,
      if_neg (show ¬((⟨k, t, d, -1⟩ : STEntry).verts = k') from fun hh => hne hh.symm)]
  | cons e es ih =>
    by_cases h1 : e.verts = k
    · rw [upsert, if_pos h1, findKey_cons, findKey_cons]
      have : (mergeEntry e t d).verts = e.verts := rfl
      rw [this]
      by_cases h3 : e.verts = k'
      · exact absurd (h3.symm.trans h1) hne
      · rw [if_neg h3, if_neg h3]
    · rw [upsert, if_neg h1]
      by_cases h2 : keyLt k e.verts = true
      · rw [if_pos h2, findKey_cons, if_neg (show ¬((⟨k, t, d, -1⟩ : STEntry).verts = k') from fun hh => hne hh.symm)]
      · rw [if_neg h2, findKey_cons, findKey_cons, ih]

/-- Re-upserting a path whose node already has birth within the requested
bounds leaves the tree unchanged. -/
theorem upsert_id {k : List Nat} {t d : Int} :
    ∀ {es : List STEntry} {e : STEntry}, SortedKeys es → findKey es k = some e →
      e.time ≤ t → e.dist ≤ d → upsert k t d es = es := by
  intro es
  induction es with
  | nil => intro e _ h; simp [findKey] at h
  | cons e0 es ih =>
    intro e hs hf ht hd
    rcases List.pairwise_cons.mp hs with ⟨hhead, htail⟩
    rw [findKey_cons] at hf
    by_cases h1 : e0.verts = k
    · rw [if_pos h1] at hf
      have he : e0 = e := by injection hf
      subst he
      rw [upsert, if_pos h1]
      have : mergeEntry e0 t d = e0 := by
        unfold mergeEntry
        cases e0
        simp_all [min_eq_left]
      rw [this]
    · rw [if_neg h1] at hf
      have hmem := findKey_mem hf
      have hvert := findKey_verts hf
      have h2 : ¬ keyLt k e0.verts = true := by
        intro h2
        have := keyLt_trans (hvert ▸ hhead e hmem) h2
        simp [keyLt_irrefl] at this
      rw [upsert, if_neg h1, if_neg h2, ih htail hf ht hd]

/-- Folding upserts over paths not containing `k` does not disturb `k`. -/
theorem findKey_foldl_not_mem {t d : Int} {k : List Nat} :
    ∀ {fs : List (List Nat)} {es : List STEntry}, k ∉ fs →
      findKey (fs.foldl (fun es f => upsert f t d es) es) k = findKey es k := by
  intro fs
  induction fs with
  | nil => intro es _; rfl
  | cons f fs ih =>
    intro es hk
    rw [List.foldl_cons, ih (fun h => hk (List.mem_cons_of_mem _ h)),
      findKey_upsert_other (fun h => hk (by rw [h]; exact List.mem_cons_self _ _))]

/-- Folding upserts keeps the flattened tree in traversal order. -/
theorem sortedKeys_foldl {t d : Int} :
    ∀ {fs : List (List Nat)} {es : List STEntry}, SortedKeys es →
      SortedKeys (fs.foldl (fun es f => upsert f t d es) es) := by
  intro fs
  induction fs with
  | nil => intro es hs; exact hs
  | cons f fs ih => intro es hs; exact ih (upsert_sorted hs)

/-- After folding upserts of a duplicate-free batch of paths with one birth,
each path of the batch holds the min-merge of its old node. -/
theorem findKey_foldl_mem {t d : Int} {k : List Nat} :
    ∀ {fs : List (List Nat)} {es : List STEntry}, SortedKeys es → fs.Nodup → k ∈ fs →
      findKey (fs.foldl (fun es f => upsert f t d es) es) k =
        some (mergeOpt k t d (findKey es k)) := by
  intro fs
  induction fs with
  | nil => intro es _ _ hk; simp at hk
  | cons f fs ih =>
    intro es hs hnd hk
    rcases List.nodup_cons.mp hnd with ⟨hf, hnd'⟩
    rw [List.foldl_cons]
    rcases List.mem_cons.mp hk with rfl | hk'
    · rw [findKey_foldl_not_mem hf, findKey_upsert_self hs]
    · have hne : k ≠ f := fun h => hf (h ▸ hk')
      rw [ih (upsert_sorted hs) hnd' hk', findKey_upsert_other hne]

/-- Membership in the face list: the non-empty sublists of the sorted vertex
list. -/
theorem mem_facesOf {f s : List Nat} : f ∈ facesOf s ↔ f ≠ [] ∧ List.Sublist f s := by
  unfold facesOf
  rw [List.mem_filter, List.mem_sublists]
  constructor
  · rintro ⟨h1, h2⟩
    refine ⟨?_, h1⟩
    simpa using h2
  · rintro ⟨h1, h2⟩
    refine ⟨h2, ?_⟩
    simpa using h1

/-- The face list of a duplicate-free vertex list has no duplicates. -/
theorem facesOf_nodup {s : List Nat} (h : s.Nodup) : (facesOf s).Nodup :=
  (List.nodup_sublists.mpr h).filter _

/-- Membership in an insertion-sorted list. -/
theorem mem_insSorted {α : Type} [LinearOrder α] {x y : α} :
    ∀ {l : List α}, y ∈ insSorted x l ↔ y = x ∨ y ∈ l := by
  intro l
  induction l with
  | nil => simp [insSorted]
  | cons z zs ih =>
    by_cases h1 : x < z
    · rw [insSorted, if_pos h1]
      simp
    · rw [insSorted, if_neg h1]
      by_cases h2 : x = z
      · rw [if_pos h2]
        subst h2
        simp only [List.mem_cons]
        tauto
      · rw [if_neg h2]
        simp only [List.mem_cons, ih]
        tauto

/-- Inserting into a strictly sorted list keeps it strictly sorted. -/
theorem insSorted_sorted {α : Type} [LinearOrder α] {x : α} :
    ∀ {l : List α}, l.Pairwise (· < ·) → (insSorted x l).Pairwise (· < ·) := by
  intro l
  induction l with
  | nil => intro _; simp [insSorted]
  | cons y ys ih =>
    intro hs
    rcases List.pairwise_cons.mp hs with ⟨hhead, htail⟩
    by_cases h1 : x < y
    · rw [insSorted, if_pos h1]
      refine List.pairwise_cons.mpr ⟨?_, hs⟩
      intro z hz
      rcases List.mem_cons.mp hz with rfl | hz'
      · exact h1
      · exact lt_trans h1 (hhead z hz')
    · rw [insSorted, if_neg h1]
      by_cases h2 : x = y
      · rw [if_pos h2]
        exact hs
      · rw [if_neg h2]
        refine List.pairwise_cons.mpr ⟨?_, ih htail⟩
        intro z hz
        rcases mem_insSorted.mp hz with rfl | hz'
        · exact lt_of_le_of_ne (le_of_not_lt h1) (Ne.symm h2)
        · exact hhead z hz'

/-- The sorted deduplication of any list is strictly sorted. -/
theorem sortDedup_sorted {α : Type} [LinearOrder α] (vs : List α) :
    (sortDedup vs).Pairwise (· < ·) := by
  unfold sortDedup
  induction vs with
  | nil => simp
  | cons v vs ih => exact insSorted_sorted ih

/-- The sorted deduplication of any list has no duplicates. -/
theorem sortDedup_nodup {α : Type} [LinearOrder α] (vs : List α) : (sortDedup vs).Nodup :=
  (sortDedup_sorted vs).imp ne_of_lt

/-- Membership in the sorted deduplication. -/
theorem mem_sortDedup {α : Type} [LinearOrder α] {x : α} {vs : List α} :
    x ∈ sortDedup vs ↔ x ∈ vs := by
  unfold sortDedup
  induction vs with
  | nil => simp
  | cons v vs ih => simp [mem_insSorted, ih]

/-- Effect of `add_simplex` on lookups: each face of the inserted simplex is
min-merged or created with the requested birth, and every other simplex is
untouched. -/
theorem find_entry_add_simplex (vs : List Nat) (t d : Int) (T : SimplexTree)
    (hs : SortedKeys T.entries) (k : List Nat) :
    find_entry (add_simplex vs t d T) k =
      if k ∈ facesOf (sortDedup vs) then some (mergeOpt k t d (find_entry T k))
      else find_entry T k := by
  unfold find_entry add_simplex
  by_cases hmem : k ∈ facesOf (sortDedup vs)
  · rw [if_pos hmem]
    exact findKey_foldl_mem hs (facesOf_nodup (sortDedup_nodup vs)) hmem
  · rw [if_neg hmem]
    exact findKey_foldl_not_mem hmem

/-- Every node after a batch of upserts either carries one of the batch
paths or a path that was already in the tree. -/
theorem mem_foldl_upsert {t d : Int} :
    ∀ {fs : List (List Nat)} {es : List STEntry} {x : STEntry},
      x ∈ fs.foldl (fun es f => upsert f t d es) es →
      (∃ y ∈ es, x.verts = y.verts) ∨ x.verts ∈ fs := by
  intro fs
  induction fs with
  | nil => intro es x hx; exact Or.inl ⟨x, hx, rfl⟩
  | cons f fs ih =>
    intro es x hx
    rw [List.foldl_cons] at hx
    rcases ih hx with ⟨y, hy, hv⟩ | h
    · rcases upsert_mem_cases hy with h' | h'
      · exact Or.inr (by rw [hv, h']; exact List.mem_cons_self _ _)
      · exact Or.inl ⟨y, h', hv⟩
    · exact Or.inr (List.mem_cons_of_mem _ h)

/-- Insertion keeps the flattened tree in traversal order. -/
theorem sortedKeys_add (vs : List Nat) (t d : Int) (T : SimplexTree)
    (h : SortedKeys T.entries) : SortedKeys (add_simplex vs t d T).entries := by
  simp only [add_simplex]
  exact sortedKeys_foldl h

/-- Insertion keeps every node's path strictly sorted and non-empty. -/
theorem strictKeys_add (vs : List Nat) (t d : Int) (T : SimplexTree)
    (h : StrictKeys T.entries) : StrictKeys (add_simplex vs t d T).entries := by
  intro x hx
  simp only [add_simplex] at hx
  rcases mem_foldl_upsert hx with ⟨y, hy, hv⟩ | hf
  · rw [hv]
    exact h y hy
  · rcases mem_facesOf.mp hf with ⟨hne, hsub⟩
    exact ⟨List.Pairwise.sublist hsub (sortDedup_sorted vs), hne⟩

/-- Insertion preserves face closure: the new faces all receive births at
most the inserted simplex's, and old nodes only ever move earlier. -/
theorem CL_add (vs : List Nat) (t d : Int) (T : SimplexTree)
    (hs : SortedKeys T.entries) (hcl : CL T) : CL (add_simplex vs t d T) := by
  intro k e f hk hfne hfsub
  rw [find_entry_add_simplex vs t d T hs] at hk
  by_cases hkf : k ∈ facesOf (sortDedup vs)
  · rw [if_pos hkf] at hk
    have hffaces : f ∈ facesOf (sortDedup vs) := by
      rcases mem_facesOf.mp hkf with ⟨_, hksub⟩
      exact mem_facesOf.mpr ⟨hfne, hfsub.trans hksub⟩
    rw [find_entry_add_simplex vs t d T hs, if_pos hffaces]
    cases hfk : find_entry T k with
    | some ek =>
      have he : e = mergeEntry ek t d := by
        rw [hfk] at hk
        injection hk with hk'
        exact hk'.symm
      subst he
      rcases hcl k ek f hfk hfne hfsub with ⟨ef, hef, ht, hd⟩
      rw [hef]
      exact ⟨mergeEntry ef t d, rfl, min_le_min ht le_rfl, min_le_min hd le_rfl⟩
    | none =>
      have he : e = (⟨k, t, d, -1⟩ : STEntry) := by
        rw [hfk] at hk
        injection hk with hk'
        exact hk'.symm
      subst he
      cases hff : find_entry T f with
      | some ef => exact ⟨mergeEntry ef t d, rfl, min_le_right _ _, min_le_right _ _⟩
      | none => exact ⟨⟨f, t, d, -1⟩, rfl, le_refl t, le_refl d⟩
  · rw [if_neg hkf] at hk
    rcases hcl k e f hk hfne hfsub with ⟨ef, hef, ht, hd⟩
    rw [find_entry_add_simplex vs t d T hs]
    by_cases hff : f ∈ facesOf (sortDedup vs)
    · rw [if_pos hff, hef]
      exact ⟨mergeEntry ef t d, rfl, le_trans (min_le_left _ _) ht,
        le_trans (min_le_left _ _) hd⟩
    · rw [if_neg hff]
      exact ⟨ef, hef, ht, hd⟩

/-- Re-indexing does not change the number of nodes. -/
theorem reindexFrom_length : ∀ (i : Nat) (es : List STEntry),
    (reindexFrom i es).length = es.length := by
  intro i es
  induction es generalizing i with
  | nil => rfl
  | cons e es ih => simp [reindexFrom, ih]

/-- Re-indexing preserves every node's path. -/
theorem reindexFrom_map_verts : ∀ (i : Nat) (es : List STEntry),
    (reindexFrom i es).map STEntry.verts = es.map STEntry.verts := by
  intro i es
  induction es generalizing i with
  | nil => rfl
  | cons e es ih => simp [reindexFrom, ih]

/-- The ordinals assigned by re-indexing from `i` are `i, i+1, ...` in
traversal order. -/
theorem reindexFrom_map_gi : ∀ (i : Nat) (es : List STEntry),
    (reindexFrom i es).map STEntry.gi =
      (List.range es.length).map (fun j => (Int.ofNat (i + j))) := by
  intro i es
  induction es generalizing i with
  | nil => rfl
  | cons e es ih =>
    rw [reindexFrom, List.map_cons, ih (i + 1), List.length_cons,
      List.range_succ_eq_map, List.map_cons, List.map_map]
    simp only [List.cons.injEq]
    refine ⟨by simp, ?_⟩
    apply List.map_congr_left
    intro a _
    show Int.ofNat (i + 1 + a) = Int.ofNat (i + Nat.succ a)
    congr 1
    omega

/-- Every ordinal assigned by re-indexing is non-negative. -/
theorem reindexFrom_gi_nonneg : ∀ (i : Nat) (es : List STEntry) (x : STEntry),
    x ∈ reindexFrom i es → 0 ≤ x.gi := by
  intro i es
  induction es generalizing i with
  | nil => intro x hx; simp [reindexFrom] at hx
  | cons e es ih =>
    intro x hx
    rw [reindexFrom] at hx
    rcases List.mem_cons.mp hx with rfl | hx'
    · exact Int.ofNat_zero_le i
    · exact ih (i + 1) x hx'

/-- Re-indexing keeps the flattened tree in traversal order. -/
theorem sortedKeys_reindexFrom {es : List STEntry} (i : Nat) (h : SortedKeys es) :
    SortedKeys (reindexFrom i es) := by
  have h1 : (es.map STEntry.verts).Pairwise (fun a b => keyLt a b = true) :=
    List.pairwise_map.mpr h
  have h2 := (reindexFrom_map_verts i es).symm ▸ h1
  exact List.pairwise_map.mp h2

/-- Re-indexing keeps every node's path strictly sorted and non-empty. -/
theorem strictKeys_reindexFrom {es : List STEntry} (i : Nat) (h : StrictKeys es) :
    StrictKeys (reindexFrom i es) := by
  intro x hx
  have hm : x.verts ∈ (reindexFrom i es).map STEntry.verts := List.mem_map_of_mem _ hx
  rw [reindexFrom_map_verts] at hm
  rcases List.mem_map.mp hm with ⟨y, hy, hv⟩
  rw [← hv]
  exact h y hy

/-- Lookups before and after re-indexing agree on everything but the
ordinal. -/
theorem findKey_reindexFrom_proj (k : List Nat) : ∀ (i : Nat) (es : List STEntry),
    (findKey (reindexFrom i es) k).map (fun e => (e.verts, e.time, e.dist)) =
      (findKey es k).map (fun e => (e.verts, e.time, e.dist)) := by
  intro i es
  induction es generalizing i with
  | nil => rfl
  | cons e es ih =>
    rw [reindexFrom, findKey_cons, findKey_cons]
    by_cases h : e.verts = k
    · rw [if_pos h, if_pos (show (⟨e.verts, e.time, e.dist, Int.ofNat i⟩ : STEntry).verts = k from h)]
      rfl
    · rw [if_neg h, if_neg (show ¬((⟨e.verts, e.time, e.dist, Int.ofNat i⟩ : STEntry).verts = k) from h)]
      exact ih (i + 1)

/-- Re-indexing preserves face closure. -/
theorem CL_reindex (T : SimplexTree) (h : CL T) : CL (update_global_indexes T) := by
  intro k e f hk hfne hfsub
  have hproj := findKey_reindexFrom_proj k 0 T.entries
  rw [show find_entry (update_global_indexes T) k = findKey (reindexFrom 0 T.entries) k from rfl]
    at hk
  rw [hk] at hproj
  rcases Option.map_eq_some'.mp hproj.symm with ⟨e0, he0, hpe⟩
  rcases h k e0 f he0 hfne hfsub with ⟨ef, hef, ht, hd⟩
  have hproj2 := findKey_reindexFrom_proj f 0 T.entries
  rw [show findKey T.entries f = find_entry T f from rfl, hef] at hproj2
  rcases Option.map_eq_some'.mp hproj2 with ⟨ef', hef', hpf⟩
  have h1 : ef'.time = ef.time := by
    have := congrArg (fun p => p.2.1) hpf
    simpa using this
  have h2 : ef'.dist = ef.dist := by
    have := congrArg (fun p => p.2.2) hpf
    simpa using this
  have h3 : e0.time = e.time := by
    have := congrArg (fun p => p.2.1) hpe
    simpa using this
  have h4 : e0.dist = e.dist := by
    have := congrArg (fun p => p.2.2) hpe
    simpa using this
  exact ⟨ef', hef', by rw [h1, ← h3]; exact ht, by rw [h2, ← h4]; exact hd⟩

/-- The invariants hold for any tree without simplices. -/
theorem Inv_of_entries_nil {T : SimplexTree} (h : T.entries = []) : Inv T := by
  refine ⟨?_, ?_, ?_⟩
  · unfold SortedKeys
    rw [h]
    exact List.Pairwise.nil
  · intro e he
    rw [h] at he
    simp at he
  · intro k e f hk
    unfold find_entry findKey at hk
    rw [h] at hk
    simp at hk

/-- A fresh tree satisfies the invariants. -/
theorem Inv_newTree (v : Int) : Inv (newTree v) :=
  Inv_of_entries_nil rfl

/-- Insertion preserves the invariants. -/
theorem Inv_add (vs : List Nat) (t d : Int) (T : SimplexTree) (h : Inv T) :
    Inv (add_simplex vs t d T) :=
  ⟨sortedKeys_add vs t d T h.1, strictKeys_add vs t d T h.2.1, CL_add vs t d T h.1 h.2.2⟩

/-- Re-indexing preserves the invariants. -/
theorem Inv_reindex (T : SimplexTree) (h : Inv T) : Inv (update_global_indexes T) :=
  ⟨sortedKeys_reindexFrom 0 h.1, strictKeys_reindexFrom 0 h.2.1, CL_reindex T h.2.2⟩

/-- Folding insertions over any batch of produced simplices preserves the
invariants. -/
theorem Inv_foldl_add (simps : List (List Nat × Rat × Rat)) (tl dl : List Rat) :
    ∀ {T : SimplexTree}, Inv T →
      Inv (simps.foldl
        (fun T x => add_simplex x.1 (idxSentinel tl x.2.1) (idxSentinel dl x.2.2) T) T) := by
  induction simps with
  | nil => intro T h; exact h
  | cons a simps ih =>
    intro T h
    rw [List.foldl_cons]
    exact ih (Inv_add _ _ _ _ h)

/-- The builder's output satisfies the invariants. -/
theorem Inv_build (n : Nat) (time : Nat → Rat) (d : Nat → Nat → Rat)
    (mt md : Rat) (mdim : Nat) (v : Int) :
    Inv (build_VR_complex n time d mt md mdim v) :=
  Inv_reindex _ (Inv_foldl_add _ _ _ (Inv_of_entries_nil rfl))

/-- Every operation preserves the invariants. -/
theorem Inv_applyOp (T : SimplexTree) (op : Op) (h : Inv T) : Inv (applyOp T op) := by
  cases op with
  | add vs t d => exact Inv_add vs t d T h
  | reindex => exact Inv_reindex T h
  | build n time d mt md mdim => exact Inv_build n time d mt md mdim T.verbosity

/-- Every operation sequence preserves the invariants. -/
theorem Inv_applyOps (ops : List Op) : ∀ {T : SimplexTree}, Inv T → Inv (applyOps ops T) := by
  induction ops with
  | nil => intro T h; exact h
  | cons op ops ih =>
    intro T h
    exact ih (Inv_applyOp T op h)

/-- C7: running the Vietoris-Rips builder on three points with pairwise
distances 1, 1, 1.4, maximum distance 1.5 and maximum time 0 produces
exactly 7 simplices (3 vertices, 3 edges, 1 triangle), and the boundary
matrix for dimension 1 at multi-index `(0, dist_index 1.4)` has 3 columns,
each holding exactly 2 distinct valid row positions. -/
theorem C7_triangle_scenario :
    get_num_simplices triTree = 7 ∧
    (triTree.entries.filter (fun e => e.verts.length == 1)).length = 3 ∧
    (triTree.entries.filter (fun e => e.verts.length == 2)).length = 3 ∧
    (triTree.entries.filter (fun e => e.verts.length == 3)).length = 1 ∧
    ∃ cols, get_boundary_mx triTree 0 (dist_index triTree (mkRat 7 5)) 1 = some cols ∧
      cols.length = 3 ∧ ∀ c ∈ cols, c.length = 2 ∧ c.Nodup ∧ ∀ r ∈ c, r < 3 :=
  ⟨by decide, by decide, by decide, by decide,
    ⟨[[1, 0], [2, 0], [2, 1]], by decide, by decide, by decide⟩⟩

/-- C2: during one `add_simplex` call, a face of the inserted simplex that
already exists is set to the coordinatewise minimum of its old birth and the
requested birth, and a face created by face closure receives the requested
birth. -/
theorem C2_birth_update_rule (ops : List Op) (v : Int) (vs : List Nat) (t d : Int)
    (F : List Nat) (hF : F ∈ facesOf (sortDedup vs)) :
    (∀ e, find_entry (applyOps ops (newTree v)) F = some e →
       ∃ e', find_entry (add_simplex vs t d (applyOps ops (newTree v))) F = some e' ∧
         e'.time = min e.time t ∧ e'.dist = min e.dist d) ∧
    (find_entry (applyOps ops (newTree v)) F = none →
       ∃ e', find_entry (add_simplex vs t d (applyOps ops (newTree v))) F = some e' ∧
         e'.time = t ∧ e'.dist = d) := by
  have hs : SortedKeys (applyOps ops (newTree v)).entries :=
    (Inv_applyOps ops (Inv_newTree v)).1
  have heff := find_entry_add_simplex vs t d (applyOps ops (newTree v)) hs F
  rw [if_pos hF] at heff
  constructor
  · intro e he
    rw [he] at heff
    exact ⟨mergeEntry e t d, heff, rfl, rfl⟩
  · intro he
    rw [he] at heff
    exact ⟨⟨F, t, d, -1⟩, heff, rfl, rfl⟩

/-- Witness for C2: inserting `{1, 2}` with birth `(3, 4)` into an empty tree
creates the face `{1}` with exactly the requested birth. -/
theorem C2_birth_update_rule_witness :
    (∀ e, find_entry (applyOps [] (newTree 0)) [1] = some e →
       ∃ e', find_entry (add_simplex [1, 2] 3 4 (applyOps [] (newTree 0))) [1] = some e' ∧
         e'.time = min e.time 3 ∧ e'.dist = min e.dist 4) ∧
    (find_entry (applyOps [] (newTree 0)) [1] = none →
       ∃ e', find_entry (add_simplex [1, 2] 3 4 (applyOps [] (newTree 0))) [1] = some e' ∧
         e'.time = 3 ∧ e'.dist = 4) :=
  C2_birth_update_rule [] 0 [1, 2] 3 4 [1] (by decide)

/-- Folding upserts over paths whose nodes already carry births within the
requested bounds leaves the tree unchanged. -/
theorem foldl_upsert_id {t d : Int} :
    ∀ {fs : List (List Nat)} {es : List STEntry}, SortedKeys es →
      (∀ f ∈ fs, ∃ e, findKey es f = some e ∧ e.time ≤ t ∧ e.dist ≤ d) →
      fs.foldl (fun es f => upsert f t d es) es = es := by
  intro fs
  induction fs with
  | nil => intro es _ _; rfl
  | cons f fs ih =>
    intro es hs hall
    rw [List.foldl_cons]
    rcases hall f (List.mem_cons_self _ _) with ⟨e, he, ht, hd⟩
    rw [upsert_id hs he ht hd]
    exact ih hs (fun g hg => hall g (List.mem_cons_of_mem _ hg))

/-- Re-inserting a simplex with the same birth multi-index is the identity on
the whole tree state. -/
theorem add_simplex_idem (vs : List Nat) (t d : Int) (T : SimplexTree)
    (hs : SortedKeys T.entries) :
    add_simplex vs t d (add_simplex vs t d T) = add_simplex vs t d T := by
  have hs1 : SortedKeys (add_simplex vs t d T).entries := sortedKeys_add vs t d T hs
  have hall : ∀ f ∈ facesOf (sortDedup vs),
      ∃ e, findKey (add_simplex vs t d T).entries f = some e ∧ e.time ≤ t ∧ e.dist ≤ d := by
    intro f hf
    have heff := find_entry_add_simplex vs t d T hs f
    rw [if_pos hf] at heff
    refine ⟨mergeOpt f t d (find_entry T f), heff, ?_, ?_⟩ <;>
      cases find_entry T f <;> simp [mergeOpt, mergeEntry, min_le_right]
  calc add_simplex vs t d (add_simplex vs t d T)
      = { add_simplex vs t d T with
          entries := (facesOf (sortDedup vs)).foldl (fun es f => upsert f t d es)
            (add_simplex vs t d T).entries,
          dirty := true } := rfl
    _ = add_simplex vs t d T := by
          rw [foldl_upsert_id hs1 hall]
          rfl

/-- C5: calling `add_simplex` a second time with the same vertex set and the
same `(time, dist)` birth multi-index leaves `get_num_simplices` unchanged
and leaves the birth multi-index of every simplex unchanged. -/
theorem C5_idempotent_reinsertion (ops : List Op) (v : Int) (vs : List Nat) (t d : Int) :
    get_num_simplices (add_simplex vs t d (add_simplex vs t d (applyOps ops (newTree v)))) =
      get_num_simplices (add_simplex vs t d (applyOps ops (newTree v))) ∧
    ∀ k, (find_entry (add_simplex vs t d (add_simplex vs t d (applyOps ops (newTree v)))) k).map
          (fun e => (e.time, e.dist)) =
        (find_entry (add_simplex vs t d (applyOps ops (newTree v))) k).map
          (fun e => (e.time, e.dist)) := by
  have h := add_simplex_idem vs t d (applyOps ops (newTree v))
    (Inv_applyOps ops (Inv_newTree v)).1
  rw [h]
  exact ⟨rfl, fun k => rfl⟩

/-- A value absent from a registry list is reported with the sentinel. -/
theorem idxFrom_not_mem {x : Rat} : ∀ {l : List Rat} (i : Nat), x ∉ l → idxFrom x i l = -1 := by
  intro l
  induction l with
  | nil => intro i _; rfl
  | cons y ys ih =>
    intro i hx
    rw [idxFrom, if_neg (fun h => hx (by rw [← h]; exact List.mem_cons_self _ _))]
    exact ih (i + 1) (fun h => hx (List.mem_cons_of_mem _ h))

/-- C6: a distance value never registered gets the not-found sentinel `-1`
from `dist_index`, likewise `time_index` for unseen times, and `get_dist`
fails with a defined error on every out-of-range index; no lookup miss
throws. -/
theorem C6_lookup_miss_policy (T : SimplexTree) (x y : Rat) (i : Int)
    (hx : x ∉ T.dist_list) (hy : y ∉ T.time_list)
    (hi : i < 0 ∨ (T.dist_list.length : Int) ≤ i) :
    dist_index T x = -1 ∧ time_index T y = -1 ∧ get_dist T i = none := by
  refine ⟨idxFrom_not_mem 0 hx, idxFrom_not_mem 0 hy, ?_⟩
  unfold get_dist
  rcases hi with h | h
  · rw [if_pos h]
  · have h0 : ¬ i < 0 := by omega
    rw [if_neg h0]
    apply List.getElem?_eq_none
    omega

/-- Witness for C6: on the empty tree, looking up the distance `1`, the time
`1`, and the index `5` all fail in the defined way. -/
theorem C6_lookup_miss_policy_witness :
    dist_index (newTree 0) 1 = -1 ∧ time_index (newTree 0) 1 = -1 ∧
      get_dist (newTree 0) 5 = none :=
  C6_lookup_miss_policy (newTree 0) 1 1 5 (by decide) (by decide) (by decide)

/-- A sequence of further insertions (the only operations that do not end in
a re-indexing pass) keeps the stale flag set. -/
theorem applyOps_dirty (post : List Op) :
    ∀ {T : SimplexTree}, (∀ op ∈ post, op.isAdd) → T.dirty = true →
      (applyOps post T).dirty = true := by
  induction post with
  | nil => intro T _ h; exact h
  | cons op ops ih =>
    intro T hops h
    cases op with
    | add vs t d => exact ih (fun o ho => hops o (List.mem_cons_of_mem _ ho)) rfl
    | reindex => exact (hops _ (List.mem_cons_self _ _)).elim
    | build n time d mt md mdim => exact (hops _ (List.mem_cons_self _ _)).elim

/-- C8: once a mutation happens after the last `update_global_indexes` call
(`pre` may include builder runs, so the registries can be populated; `post`
holds only further insertions, since `reindex` and the builder both end
with an `update_global_indexes` pass), every matrix-extraction call
(`get_boundary_mx`, `get_merge_mx`, `get_split_mx`) detects the stale state
and fails with the defined error instead of returning a matrix. -/
theorem C8_stale_index_rejection (pre post : List Op) (v : Int) (vs : List Nat)
    (t d : Int) (hpost : ∀ op ∈ post, op.isAdd) (time dist : Int) (dim : Nat) :
    get_boundary_mx (applyOps post (add_simplex vs t d (applyOps pre (newTree v))))
      time dist dim = none ∧
    get_merge_mx (applyOps post (add_simplex vs t d (applyOps pre (newTree v))))
      time dist dim = none ∧
    get_split_mx (applyOps post (add_simplex vs t d (applyOps pre (newTree v))))
      time dist dim = none := by
  have hd : (applyOps post (add_simplex vs t d (applyOps pre (newTree v)))).dirty = true :=
    applyOps_dirty post hpost rfl
  refine ⟨?_, ?_, ?_⟩ <;> simp [get_boundary_mx, get_merge_mx, get_split_mx, hd]

/-- Witness for C8: build the triangle complex (populating the registries),
then insert `{1}` again without re-indexing.  At the very multi-index
`(0, 2)` and dimension 1 where the clean tree yields a genuine boundary
matrix, all three extractors now reject — so the failure is due to the
stale state, not to an invalid multi-index. -/
theorem C8_stale_index_rejection_witness :
    get_boundary_mx (applyOps [] (add_simplex [1] 0 0
      (applyOps [Op.build 3 (fun _ => 0) triDist 0 (mkRat 3 2) 2] (newTree 0)))) 0 2 1 = none ∧
    get_merge_mx (applyOps [] (add_simplex [1] 0 0
      (applyOps [Op.build 3 (fun _ => 0) triDist 0 (mkRat 3 2) 2] (newTree 0)))) 0 2 1 = none ∧
    get_split_mx (applyOps [] (add_simplex [1] 0 0
      (applyOps [Op.build 3 (fun _ => 0) triDist 0 (mkRat 3 2) 2] (newTree 0)))) 0 2 1 = none ∧
    get_boundary_mx (applyOps [Op.build 3 (fun _ => 0) triDist 0 (mkRat 3 2) 2] (newTree 0))
      0 2 1 = some [[1, 0], [2, 0], [2, 1]] :=
  ⟨(C8_stale_index_rejection [Op.build 3 (fun _ => 0) triDist 0 (mkRat 3 2) 2] [] 0 [1] 0 0
      (by simp) 0 2 1).1,
   (C8_stale_index_rejection [Op.build 3 (fun _ => 0) triDist 0 (mkRat 3 2) 2] [] 0 [1] 0 0
      (by simp) 0 2 1).2.1,
   (C8_stale_index_rejection [Op.build 3 (fun _ => 0) triDist 0 (mkRat 3 2) 2] [] 0 [1] 0 0
      (by simp) 0 2 1).2.2,
   by decide⟩

/-- The entries an insertion fold produces depend only on the entries of
the starting tree. -/
theorem foldl_add_simplex_entries (simps : List (List Nat × Rat × Rat)) (tl dl : List Rat) :
    ∀ {T1 T2 : SimplexTree}, T1.entries = T2.entries →
      (simps.foldl (fun T x => add_simplex x.1 (idxSentinel tl x.2.1) (idxSentinel dl x.2.2) T)
        T1).entries =
      (simps.foldl (fun T x => add_simplex x.1 (idxSentinel tl x.2.1) (idxSentinel dl x.2.2) T)
        T2).entries := by
  induction simps with
  | nil => intro T1 T2 h; exact h
  | cons a simps ih =>
    intro T1 T2 h
    rw [List.foldl_cons, List.foldl_cons]
    exact ih (by simp [add_simplex, h])

/-- Inserting simplices never touches the distance registry. -/
theorem foldl_add_simplex_dist_list (simps : List (List Nat × Rat × Rat)) (tl dl : List Rat) :
    ∀ T : SimplexTree,
      (simps.foldl
        (fun T x => add_simplex x.1 (idxSentinel tl x.2.1) (idxSentinel dl x.2.2) T)
        T).dist_list = T.dist_list := by
  induction simps with
  | nil => intro T; rfl
  | cons a simps ih =>
    intro T
    rw [List.foldl_cons, ih]
    rfl

/-- Inserting simplices never touches the time registry. -/
theorem foldl_add_simplex_time_list (simps : List (List Nat × Rat × Rat)) (tl dl : List Rat) :
    ∀ T : SimplexTree,
      (simps.foldl
        (fun T x => add_simplex x.1 (idxSentinel tl x.2.1) (idxSentinel dl x.2.2) T)
        T).time_list = T.time_list := by
  induction simps with
  | nil => intro T; rfl
  | cons a simps ih =>
    intro T
    rw [List.foldl_cons, ih]
    rfl

/-- The builder's observable state — entries, registries and staleness —
does not depend on the verbosity argument. -/
theorem build_VR_complex_core (n : Nat) (time : Nat → Rat) (d : Nat → Nat → Rat)
    (mt md : Rat) (mdim : Nat) (v1 v2 : Int) :
    (build_VR_complex n time d mt md mdim v1).entries =
      (build_VR_complex n time d mt md mdim v2).entries ∧
    (build_VR_complex n time d mt md mdim v1).dist_list =
      (build_VR_complex n time d mt md mdim v2).dist_list ∧
    (build_VR_complex n time d mt md mdim v1).time_list =
      (build_VR_complex n time d mt md mdim v2).time_list ∧
    (build_VR_complex n time d mt md mdim v1).dirty =
      (build_VR_complex n time d mt md mdim v2).dirty := by
  refine ⟨?_, ?_, ?_, rfl⟩
  · simp only [build_VR_complex, update_global_indexes]
    exact congrArg (reindexFrom 0) (foldl_add_simplex_entries _ _ _ rfl)
  · simp only [build_VR_complex, update_global_indexes]
    rw [foldl_add_simplex_dist_list, foldl_add_simplex_dist_list]
  · simp only [build_VR_complex, update_global_indexes]
    rw [foldl_add_simplex_time_list, foldl_add_simplex_time_list]

/-- Trees agreeing on everything but verbosity keep agreeing on everything
but verbosity under any operation sequence. -/
theorem applyOps_core (ops : List Op) :
    ∀ {T1 T2 : SimplexTree}, T1.entries = T2.entries → T1.dist_list = T2.dist_list →
      T1.time_list = T2.time_list → T1.dirty = T2.dirty →
      ((applyOps ops T1).entries = (applyOps ops T2).entries ∧
       (applyOps ops T1).dist_list = (applyOps ops T2).dist_list ∧
       (applyOps ops T1).time_list = (applyOps ops T2).time_list ∧
       (applyOps ops T1).dirty = (applyOps ops T2).dirty) := by
  induction ops with
  | nil => intro T1 T2 h1 h2 h3 h4; exact ⟨h1, h2, h3, h4⟩
  | cons op ops ih =>
    intro T1 T2 h1 h2 h3 h4
    cases op with
    | add vs t d =>
      exact ih (by simp [applyOp, add_simplex, h1]) (by simp [applyOp, add_simplex, h2])
        (by simp [applyOp, add_simplex, h3]) (by simp [applyOp, add_simplex])
    | reindex =>
      exact ih (by simp [applyOp, update_global_indexes, h1])
        (by simp [applyOp, update_global_indexes, h2])
        (by simp [applyOp, update_global_indexes, h3])
        (by simp [applyOp, update_global_indexes])
    | build n time d mt md mdim =>
      have hc := build_VR_complex_core n time d mt md mdim T1.verbosity T2.verbosity
      exact ih hc.1 hc.2.1 hc.2.2.1 hc.2.2.2

/-- C10: two trees constructed with different verbosity arguments and driven
by the same operation sequence agree on every query: `find_index`,
`find_vertices`, `get_simplex_data`, `get_num_simplices`, `get_num_dists`,
`get_num_times`, `dist_index`, `time_index`, and all three matrix
extractors; verbosity influences no observable result. -/
theorem C10_verbosity_noninterference (ops : List Op) (v1 v2 : Int) :
    (∀ k, find_index (applyOps ops (newTree v1)) k = find_index (applyOps ops (newTree v2)) k) ∧
    (∀ i, find_vertices (applyOps ops (newTree v1)) i =
      find_vertices (applyOps ops (newTree v2)) i) ∧
    (∀ i, get_simplex_data (applyOps ops (newTree v1)) i =
      get_simplex_data (applyOps ops (newTree v2)) i) ∧
    get_num_simplices (applyOps ops (newTree v1)) =
      get_num_simplices (applyOps ops (newTree v2)) ∧
    get_num_dists (applyOps ops (newTree v1)) = get_num_dists (applyOps ops (newTree v2)) ∧
    get_num_times (applyOps ops (newTree v1)) = get_num_times (applyOps ops (newTree v2)) ∧
    (∀ x, dist_index (applyOps ops (newTree v1)) x = dist_index (applyOps ops (newTree v2)) x) ∧
    (∀ x, time_index (applyOps ops (newTree v1)) x = time_index (applyOps ops (newTree v2)) x) ∧
    (∀ ti di dim, get_boundary_mx (applyOps ops (newTree v1)) ti di dim =
        get_boundary_mx (applyOps ops (newTree v2)) ti di dim ∧
      get_merge_mx (applyOps ops (newTree v1)) ti di dim =
        get_merge_mx (applyOps ops (newTree v2)) ti di dim ∧
      get_split_mx (applyOps ops (newTree v1)) ti di dim =
        get_split_mx (applyOps ops (newTree v2)) ti di dim) := by
  have h := applyOps_core ops
    (show (newTree v1).entries = (newTree v2).entries from rfl)
    (show (newTree v1).dist_list = (newTree v2).dist_list from rfl)
    (show (newTree v1).time_list = (newTree v2).time_list from rfl)
    (show (newTree v1).dirty = (newTree v2).dirty from rfl)
  obtain ⟨h1, h2, h3, h4⟩ := h
  refine ⟨?_, ?_, ?_, ?_, ?_, ?_, ?_, ?_, ?_⟩
  · intro k
    unfold find_index find_entry findKey
    rw [h1]
  · intro i
    unfold find_vertices
    rw [h1]
  · intro i
    unfold get_simplex_data
    rw [h1]
  · unfold get_num_simplices
    rw [h1]
  · unfold get_num_dists
    rw [h2]
  · unfold get_num_times
    rw [h3]
  · intro x
    unfold dist_index
    rw [h2]
  · intro x
    unfold time_index
    rw [h3]
  · intro ti di dim
    refine ⟨?_, ?_, ?_⟩
    · unfold get_boundary_mx simplices_at
      rw [h1, h2, h3, h4]
    · unfold get_merge_mx simplices_at
      rw [h1, h2, h3, h4]
    · unfold get_split_mx simplices_at
      rw [h1, h2, h3, h4]

/-- Witness for C10: driving two trees of verbosity 0 and 7 through a
builder run of the triangle complex, the registry lookup `dist_index 1.4`
and the boundary matrix at `(0, 2)` agree — the quantified universe reaches
populated registries and genuine matrices. -/
theorem C10_verbosity_noninterference_witness :
    dist_index (applyOps [Op.build 3 (fun _ => 0) triDist 0 (mkRat 3 2) 2] (newTree 0))
        (mkRat 7 5) =
      dist_index (applyOps [Op.build 3 (fun _ => 0) triDist 0 (mkRat 3 2) 2] (newTree 7))
        (mkRat 7 5) ∧
    get_boundary_mx (applyOps [Op.build 3 (fun _ => 0) triDist 0 (mkRat 3 2) 2] (newTree 0))
        0 2 1 =
      get_boundary_mx (applyOps [Op.build 3 (fun _ => 0) triDist 0 (mkRat 3 2) 2] (newTree 7))
        0 2 1 :=
  ⟨(C10_verbosity_noninterference [Op.build 3 (fun _ => 0) triDist 0 (mkRat 3 2) 2]
      0 7).2.2.2.2.2.2.1 (mkRat 7 5),
   ((C10_verbosity_noninterference [Op.build 3 (fun _ => 0) triDist 0 (mkRat 3 2) 2]
      0 7).2.2.2.2.2.2.2.2 0 2 1).1⟩

/-- A strictly sorted list that is a subset of another strictly sorted list
is a sublist of it. -/
theorem sorted_subset_sublist : ∀ {S F : List Nat}, F.Pairwise (· < ·) → S.Pairwise (· < ·) →
    (∀ x ∈ F, x ∈ S) → List.Sublist F S := by
  intro S
  induction S with
  | nil =>
    intro F _ _ hsub
    cases F with
    | nil => exact List.Sublist.refl []
    | cons x F => exact absurd (hsub x (List.mem_cons_self _ _)) (List.not_mem_nil x)
  | cons y S ih =>
    intro F hF hS hsub
    rcases List.pairwise_cons.mp hS with ⟨hyS, hS'⟩
    cases F with
    | nil => exact List.nil_sublist _
    | cons x F =>
      rcases List.pairwise_cons.mp hF with ⟨hxF, hF'⟩
      by_cases hxy : x = y
      · subst hxy
        apply List.Sublist.cons₂
        apply ih hF' hS'
        intro z hz
        rcases List.mem_cons.mp (hsub z (List.mem_cons_of_mem _ hz)) with rfl | h
        · exact absurd (hxF z hz) (lt_irrefl z)
        · exact h
      · apply List.Sublist.cons
        apply ih hF hS'
        intro z hz
        rcases List.mem_cons.mp (hsub z hz) with heq | h
        · rcases List.mem_cons.mp hz with heq2 | hzF
          · exact absurd (heq2.symm.trans heq) hxy
          · rcases List.mem_cons.mp (hsub x (List.mem_cons_self _ _)) with heq3 | hxS'
            · exact absurd heq3 hxy
            · have hyy : y < y := by
                calc y < x := hyS x hxS'
                  _ < z := hxF z hzF
                  _ = y := heq
              exact absurd hyy (lt_irrefl y)
        · exact h

/-- Expansion of `find?` on a non-empty list, with the predicate held
explicit. -/
theorem find?_cons_eq {α : Type} (p : α → Bool) (a : α) (l : List α) :
    (a :: l).find? p = if p a then some a else l.find? p := by
  by_cases h : p a = true
  · rw [List.find?_cons_of_pos _ h, if_pos h]
  · rw [List.find?_cons_of_neg _ h, if_neg h]

/-- In a list whose image under `f` has no duplicates, searching by the
`f`-value of a member finds exactly that member. -/
theorem find?_eq_of_nodup_map {α β : Type} [BEq β] [LawfulBEq β] (f : α → β) :
    ∀ {l : List α} {e : α}, (l.map f).Nodup → e ∈ l →
      l.find? (fun x => f x == f e) = some e := by
  intro l
  induction l with
  | nil => intro e _ h; simp at h
  | cons a l ih =>
    intro e hnd he
    rw [List.map_cons, List.nodup_cons] at hnd
    rw [find?_cons_eq (fun x => f x == f e) a l]
    rcases List.mem_cons.mp he with rfl | he'
    · rw [if_pos (by simp)]
    · have hfa : ¬((fun x => f x == f e) a = true) := by
        simp only [beq_iff_eq]
        intro hh
        exact hnd.1 (by rw [hh]; exact List.mem_map_of_mem f he')
      rw [if_neg hfa]
      exact ih hnd.2 he'

/-- The ordinals assigned by re-indexing are pairwise distinct. -/
theorem reindexFrom_gi_nodup (es : List STEntry) :
    ((reindexFrom 0 es).map STEntry.gi).Nodup := by
  rw [reindexFrom_map_gi]
  refine List.Nodup.map ?_ (List.nodup_range _)
  intro a b hab
  have := Int.ofNat.inj hab
  omega

/-- In traversal order the label paths are pairwise distinct. -/
theorem sortedKeys_verts_nodup {es : List STEntry} (h : SortedKeys es) :
    (es.map STEntry.verts).Nodup := by
  have h' : es.Pairwise (fun a b => a.verts ≠ b.verts) := h.imp keyLt_ne
  exact List.pairwise_map.mpr h'

/-- The node at position `j` after re-indexing from `i` has ordinal `i + j`. -/
theorem reindexFrom_get_gi : ∀ (es : List STEntry) (i j : Nat)
    (h : j < (reindexFrom i es).length),
    ((reindexFrom i es).get ⟨j, h⟩).gi = Int.ofNat (i + j) := by
  intro es
  induction es with
  | nil => intro i j h; simp [reindexFrom] at h
  | cons e es ih =>
    intro i j h
    cases j with
    | zero => rfl
    | succ j =>
      have h' : j < (reindexFrom (i + 1) es).length := by
        rw [reindexFrom_length]
        rw [reindexFrom_length] at h
        simpa using Nat.lt_of_succ_lt_succ h
      have hstep : ((reindexFrom i (e :: es)).get ⟨j + 1, h⟩) =
          ((reindexFrom (i + 1) es).get ⟨j, h'⟩) := rfl
      rw [hstep, ih (i + 1) j h']
      congr 1
      omega

/-- After re-indexing, a simplex of strictly smaller dimension has a
strictly smaller ordinal. -/
theorem reindexFrom_dim_lt {es : List STEntry} (hs : SortedKeys es) :
    ∀ e1 ∈ reindexFrom 0 es, ∀ e2 ∈ reindexFrom 0 es,
      e1.verts.length < e2.verts.length → e1.gi < e2.gi := by
  intro e1 h1 e2 h2 hlen
  have hs' : SortedKeys (reindexFrom 0 es) := sortedKeys_reindexFrom 0 hs
  rcases List.mem_iff_get.mp h1 with ⟨⟨i1, hi1⟩, he1⟩
  rcases List.mem_iff_get.mp h2 with ⟨⟨i2, hi2⟩, he2⟩
  have hg1 : e1.gi = Int.ofNat i1 := by
    rw [← he1, reindexFrom_get_gi]
    simp
  have hg2 : e2.gi = Int.ofNat i2 := by
    rw [← he2, reindexFrom_get_gi]
    simp
  rcases Nat.lt_trichotomy i1 i2 with h | h | h
  · rw [hg1, hg2]
    exact Int.ofNat_lt.mpr h
  · have he : e1 = e2 := by
      rw [← he1, ← he2]
      congr 1
      exact Fin.ext h
    rw [he] at hlen
    exact absurd hlen (lt_irrefl _)
  · have hk := List.pairwise_iff_get.mp hs' ⟨i2, hi2⟩ ⟨i1, hi1⟩ (Fin.mk_lt_mk.mpr h)
    rw [he1, he2] at hk
    have := keyLt_length_le hk
    omega

/-- C3: after `update_global_indexes`, the global indexes over all simplices
are exactly `0, 1, ..., N-1` with `N = get_num_simplices` (in traversal
order), and any simplex of strictly smaller dimension has a strictly
smaller global index; this holds after any operation sequence. -/
theorem C3_ordinal_density_and_dimension_order (ops : List Op) (v : Int) :
    ((update_global_indexes (applyOps ops (newTree v))).entries.map STEntry.gi =
      (List.range (get_num_simplices (update_global_indexes (applyOps ops (newTree v))))).map
        Int.ofNat) ∧
    (∀ e1 ∈ (update_global_indexes (applyOps ops (newTree v))).entries,
      ∀ e2 ∈ (update_global_indexes (applyOps ops (newTree v))).entries,
        e1.verts.length < e2.verts.length → e1.gi < e2.gi) := by
  constructor
  · have hlen : get_num_simplices (update_global_indexes (applyOps ops (newTree v))) =
        (applyOps ops (newTree v)).entries.length := reindexFrom_length 0 _
    rw [hlen]
    rw [show (update_global_indexes (applyOps ops (newTree v))).entries =
      reindexFrom 0 (applyOps ops (newTree v)).entries from rfl]
    rw [reindexFrom_map_gi]
    apply List.map_congr_left
    intro a _
    simp
  · exact reindexFrom_dim_lt (Inv_applyOps ops (Inv_newTree v)).1

/-- Witness for C3: after inserting `{0, 1}` and re-indexing, the ordinals
are `[0, 1, 2]` and the vertex `{0}` precedes the edge `{0, 1}`. -/
theorem C3_ordinal_density_and_dimension_order_witness :
    ((update_global_indexes (applyOps [Op.add [0, 1] 2 3] (newTree 0))).entries.map STEntry.gi =
      (List.range (get_num_simplices (update_global_indexes
        (applyOps [Op.add [0, 1] 2 3] (newTree 0))))).map Int.ofNat) ∧
    (⟨[0], 2, 3, 0⟩ : STEntry).gi < (⟨[0, 1], 2, 3, 2⟩ : STEntry).gi :=
  ⟨(C3_ordinal_density_and_dimension_order [Op.add [0, 1] 2 3] 0).1,
    (C3_ordinal_density_and_dimension_order [Op.add [0, 1] 2 3] 0).2
      ⟨[0], 2, 3, 0⟩ (by decide) ⟨[0, 1], 2, 3, 2⟩ (by decide) (by decide)⟩

/-- C4: on a tree whose indexes are current, every global index `i` in
`[0, N)` satisfies `find_index (find_vertices i) = i`. -/
theorem C4_round_trip (ops : List Op) (v : Int) (i : Nat)
    (hi : i < get_num_simplices (update_global_indexes (applyOps ops (newTree v)))) :
    ∃ vs, find_vertices (update_global_indexes (applyOps ops (newTree v))) (Int.ofNat i) =
        some vs ∧
      find_index (update_global_indexes (applyOps ops (newTree v))) vs = Int.ofNat i := by
  have hinv := Inv_applyOps ops (Inv_newTree v)
  have hi' : i < (reindexFrom 0 (applyOps ops (newTree v)).entries).length := hi
  have hmem : (reindexFrom 0 (applyOps ops (newTree v)).entries).get ⟨i, hi'⟩ ∈
      reindexFrom 0 (applyOps ops (newTree v)).entries := List.get_mem _ _ hi'
  have hgi : ((reindexFrom 0 (applyOps ops (newTree v)).entries).get ⟨i, hi'⟩).gi =
      Int.ofNat i := by
    rw [reindexFrom_get_gi]
    simp
  refine ⟨((reindexFrom 0 (applyOps ops (newTree v)).entries).get ⟨i, hi'⟩).verts, ?_, ?_⟩
  · unfold find_vertices
    rw [show (update_global_indexes (applyOps ops (newTree v))).entries =
      reindexFrom 0 (applyOps ops (newTree v)).entries from rfl]
    rw [← hgi]
    rw [find?_eq_of_nodup_map STEntry.gi (reindexFrom_gi_nodup _) hmem]
    rfl
  · unfold find_index find_entry findKey
    rw [show (update_global_indexes (applyOps ops (newTree v))).entries =
      reindexFrom 0 (applyOps ops (newTree v)).entries from rfl]
    rw [find?_eq_of_nodup_map STEntry.verts
      (sortedKeys_verts_nodup (sortedKeys_reindexFrom 0 hinv.1)) hmem]
    exact hgi

/-- Witness for C4: the round trip holds at index 0 of a one-vertex tree. -/
theorem C4_round_trip_witness :
    ∃ vs, find_vertices (update_global_indexes (applyOps [Op.add [5] 1 2] (newTree 0)))
        (Int.ofNat 0) = some vs ∧
      find_index (update_global_indexes (applyOps [Op.add [5] 1 2] (newTree 0))) vs =
        Int.ofNat 0 :=
  C4_round_trip [Op.add [5] 1 2] 0 0 (by decide)

/-- C1: after any sequence of insertions followed by re-indexing, for every
simplex `S` present in the tree and every non-empty subset `F` of its
vertex set, `find_index F` succeeds (is not `-1`) and the birth multi-index
`get_simplex_data` reports for `F` is coordinatewise at most the one it
reports for `S`. -/
theorem C1_face_closure (ops : List Op) (v : Int) (S F : List Nat) (eS : STEntry)
    (hS : find_entry (update_global_indexes (applyOps ops (newTree v))) S = some eS)
    (hFne : F ≠ []) (hFsort : F.Pairwise (· < ·)) (hFsub : ∀ x ∈ F, x ∈ S) :
    find_index (update_global_indexes (applyOps ops (newTree v))) F ≠ -1 ∧
    ∃ sdF sdS,
      get_simplex_data (update_global_indexes (applyOps ops (newTree v)))
        (find_index (update_global_indexes (applyOps ops (newTree v))) F) = some sdF ∧
      get_simplex_data (update_global_indexes (applyOps ops (newTree v)))
        (find_index (update_global_indexes (applyOps ops (newTree v))) S) = some sdS ∧
      sdF.time ≤ sdS.time ∧ sdF.dist ≤ sdS.dist := by
  have hinv := Inv_reindex _ (Inv_applyOps ops (Inv_newTree v))
  have hSsort : S.Pairwise (· < ·) := by
    have hp := hinv.2.1 eS (findKey_mem hS)
    rw [findKey_verts hS] at hp
    exact hp.1
  have hsub : List.Sublist F S := sorted_subset_sublist hFsort hSsort hFsub
  rcases hinv.2.2 S eS F hS hFne hsub with ⟨eF, hF, ht, hd⟩
  have hgiF : find_index (update_global_indexes (applyOps ops (newTree v))) F = eF.gi := by
    unfold find_index
    rw [hF]
  have hgiS : find_index (update_global_indexes (applyOps ops (newTree v))) S = eS.gi := by
    unfold find_index
    rw [hS]
  have hmemF : eF ∈ (update_global_indexes (applyOps ops (newTree v))).entries :=
    findKey_mem hF
  have hmemS : eS ∈ (update_global_indexes (applyOps ops (newTree v))).entries :=
    findKey_mem hS
  have hnn : 0 ≤ eF.gi :=
    reindexFrom_gi_nonneg 0 (applyOps ops (newTree v)).entries eF hmemF
  constructor
  · rw [hgiF]
    omega
  · refine ⟨⟨eF.time, eF.dist, eF.verts.length - 1⟩, ⟨eS.time, eS.dist, eS.verts.length - 1⟩,
      ?_, ?_, ht, hd⟩
    · rw [hgiF]
      unfold get_simplex_data
      rw [show (update_global_indexes (applyOps ops (newTree v))).entries =
        reindexFrom 0 (applyOps ops (newTree v)).entries from rfl]
      rw [find?_eq_of_nodup_map STEntry.gi (reindexFrom_gi_nodup _) hmemF]
      rfl
    · rw [hgiS]
      unfold get_simplex_data
      rw [show (update_global_indexes (applyOps ops (newTree v))).entries =
        reindexFrom 0 (applyOps ops (newTree v)).entries from rfl]
      rw [find?_eq_of_nodup_map STEntry.gi (reindexFrom_gi_nodup _) hmemS]
      rfl

/-- Witness for C1: with the edge `{1, 2}` inserted, the face `{2}` is found
and its birth is within the edge's birth. -/
theorem C1_face_closure_witness :
    find_index (update_global_indexes (applyOps [Op.add [1, 2] 5 7] (newTree 0))) [2] ≠ -1 ∧
    ∃ sdF sdS,
      get_simplex_data (update_global_indexes (applyOps [Op.add [1, 2] 5 7] (newTree 0)))
        (find_index (update_global_indexes (applyOps [Op.add [1, 2] 5 7] (newTree 0))) [2]) =
        some sdF ∧
      get_simplex_data (update_global_indexes (applyOps [Op.add [1, 2] 5 7] (newTree 0)))
        (find_index (update_global_indexes (applyOps [Op.add [1, 2] 5 7] (newTree 0))) [1, 2]) =
        some sdS ∧
      sdF.time ≤ sdS.time ∧ sdF.dist ≤ sdS.dist :=
  C1_face_closure [Op.add [1, 2] 5 7] 0 [1, 2] [2] ⟨[1, 2], 5, 7, 2⟩
    (by decide) (by decide) (by decide) (by decide)

/-- Shuffle of a four-way maximum. -/
theorem max_max_swap (a b c e : Rat) : max (max a b) (max c e) = max (max a c) (max b e) := by
  rw [max_assoc, max_left_comm b c e, ← max_assoc]

/-- A fold of maxima over a non-negative base splits off the base. -/
theorem foldr_max_base (g : Nat → Rat) (b : Rat) (hb : 0 ≤ b) :
    ∀ l : List Nat, l.foldr (fun x acc => max (g x) acc) b =
      max (l.foldr (fun x acc => max (g x) acc) 0) b := by
  intro l
  induction l with
  | nil => simp [max_eq_right hb]
  | cons x xs ih => rw [List.foldr_cons, List.foldr_cons, ih, max_assoc]

/-- Appending one target vertex to a distance fold adds one term. -/
theorem maxDistFrom_append (d : Nat → Nat → Rat) (i j : Nat) (l : List Nat)
    (hd : 0 ≤ d i j) :
    maxDistFrom d i (l ++ [j]) = max (maxDistFrom d i l) (d i j) := by
  unfold maxDistFrom
  rw [List.foldr_append]
  rw [show ([j].foldr (fun w acc => max (d i w) acc) 0) = max (d i j) 0 from rfl]
  rw [max_eq_left hd]
  exact foldr_max_base (fun w => d i w) (d i j) hd l

/-- Extending a simplex by a final vertex combines the old pairwise maximum
with the distances to the new vertex. -/
theorem maxPairDist_append (d : Nat → Nat → Rat) (hd : ∀ a b, 0 ≤ d a b) (j : Nat) :
    ∀ s : List Nat, maxPairDist d (s ++ [j]) = max (maxPairDist d s) (maxDistTo d s j) := by
  intro s
  induction s with
  | nil => simp [maxPairDist, maxDistFrom, maxDistTo]
  | cons i s ih =>
    rw [List.cons_append, maxPairDist, maxPairDist, ih]
    rw [maxDistFrom_append d i j s (hd i j)]
    rw [show maxDistTo d (i :: s) j = max (d i j) (maxDistTo d s j) from rfl]
    exact max_max_swap _ _ _ _

/-- Extending a non-empty simplex by a final vertex combines the old time
maximum with the new vertex's time. -/
theorem maxTimeOf_append (time : Nat → Rat) (j : Nat) :
    ∀ s : List Nat, s ≠ [] → maxTimeOf time (s ++ [j]) = max (maxTimeOf time s) (time j) := by
  intro s hs
  cases s with
  | nil => exact absurd rfl hs
  | cons v vs =>
    show ((vs ++ [j]).foldl (fun acc w => max acc (time w)) (time v)) =
      max (vs.foldl (fun acc w => max acc (time w)) (time v)) (time j)
    rw [List.foldl_append]
    rfl

/-- The fold of distances to one vertex stays within any non-negative bound
that bounds each distance. -/
theorem maxDistTo_le {d : Nat → Nat → Rat} {j : Nat} {md : Rat} (h0 : 0 ≤ md) :
    ∀ {s : List Nat}, (∀ i ∈ s, d i j ≤ md) → maxDistTo d s j ≤ md := by
  intro s
  induction s with
  | nil => intro _; exact h0
  | cons i s ih =>
    intro h
    show max (d i j) (maxDistTo d s j) ≤ md
    exact max_le (h i (List.mem_cons_self _ _)) (ih (fun x hx => h x (List.mem_cons_of_mem _ hx)))

/-- Invariant of the recursive extension: every produced simplex carries a
birth time equal to the maximum vertex time and a birth distance equal to
the maximum pairwise distance, both within the supplied bounds. -/
theorem growVR_spec (n : Nat) (time : Nat → Rat) (d : Nat → Nat → Rat)
    (mt md : Rat) (hd : ∀ a b, 0 ≤ d a b) (h0 : 0 ≤ md) :
    ∀ (fuel : Nat) (s : List Nat) (pt pd : Rat) (dl : Nat),
      s ≠ [] → pt = maxTimeOf time s → pd = maxPairDist d s → pt ≤ mt → pd ≤ md →
      ∀ x ∈ growVR n time d mt md fuel s pt pd dl,
        x.2.1 = maxTimeOf time x.1 ∧ x.2.2 = maxPairDist d x.1 ∧
        x.2.1 ≤ mt ∧ x.2.2 ≤ md := by
  intro fuel
  induction fuel with
  | zero => intro s pt pd dl _ _ _ _ _ x hx; simp [growVR] at hx
  | succ fuel ih =>
    intro s pt pd dl hne hpt hpd hmt hmd x hx
    rw [growVR] at hx
    by_cases hdl : dl = 0
    · rw [if_pos hdl] at hx
      simp at hx
    · rw [if_neg hdl] at hx
      rcases List.mem_flatMap.mp hx with ⟨j, hj, hxj⟩
      rcases List.mem_filter.mp hj with ⟨_, hjok⟩
      simp only [extendOk, Bool.and_eq_true, List.all_eq_true, decide_eq_true_eq] at hjok
      obtain ⟨⟨_, hjt⟩, hjd⟩ := hjok
      have hpt' : max pt (time j) = maxTimeOf time (s ++ [j]) := by
        rw [maxTimeOf_append time j s hne, hpt]
      have hpd' : max pd (maxDistTo d s j) = maxPairDist d (s ++ [j]) := by
        rw [maxPairDist_append d hd j s, hpd]
      have hmt' : max pt (time j) ≤ mt := max_le hmt hjt
      have hmd' : max pd (maxDistTo d s j) ≤ md := max_le hmd (maxDistTo_le h0 hjd)
      rcases List.mem_cons.mp hxj with rfl | hrec
      · exact ⟨hpt', hpd', hmt', hmd'⟩
      · exact ih (s ++ [j]) (max pt (time j)) (max pd (maxDistTo d s j)) (dl - 1)
          (by simp) hpt' hpd' hmt' hmd' x hrec

/-- Every simplex the Vietoris-Rips builder produces has its birth time
equal to the maximum vertex time and its birth distance equal to the
maximum pairwise distance, both within the supplied bounds. -/
theorem vrSimplexList_spec (n : Nat) (time : Nat → Rat) (d : Nat → Nat → Rat)
    (mt md : Rat) (mdim : Nat) (hd : ∀ a b, 0 ≤ d a b) (h0 : 0 ≤ md) :
    ∀ x ∈ vrSimplexList n time d mt md mdim,
      x.2.1 = maxTimeOf time x.1 ∧ x.2.2 = maxPairDist d x.1 ∧
      x.2.1 ≤ mt ∧ x.2.2 ≤ md := by
  intro x hx
  unfold vrSimplexList at hx
  rcases List.mem_flatMap.mp hx with ⟨vtx, hv, hxv⟩
  rcases List.mem_filter.mp hv with ⟨_, hvt⟩
  simp only [decide_eq_true_eq] at hvt
  rcases List.mem_cons.mp hxv with rfl | hrec
  · refine ⟨rfl, ?_, hvt, h0⟩
    show (0 : Rat) = maxPairDist d [vtx]
    simp [maxPairDist, maxDistFrom]
  · exact growVR_spec n time d mt md hd h0 n [vtx] (time vtx) 0 mdim (by simp) rfl
      (by simp [maxPairDist, maxDistFrom]) hvt h0 x hrec

/-- C9: every simplex produced by `build_VR_complex` has birth distance
equal to the maximum pairwise distance among its vertices and birth time
equal to the maximum of the contributing points' times, both within the
supplied bounds; consequently every value stored in `dist_list` is at most
the maximum distance passed to the builder.  The distance source is
non-negative per spec section 6, and the distance bound is non-negative. -/
theorem C9_builder_birth_and_clamp (n : Nat) (time : Nat → Rat) (d : Nat → Nat → Rat)
    (mt md : Rat) (mdim : Nat) (v : Int) (hd : ∀ a b, 0 ≤ d a b) (h0 : 0 ≤ md) :
    (∀ s bt bd, (s, bt, bd) ∈ vrSimplexList n time d mt md mdim →
       bt = maxTimeOf time s ∧ bd = maxPairDist d s ∧ bt ≤ mt ∧ bd ≤ md) ∧
    (∀ x ∈ (build_VR_complex n time d mt md mdim v).dist_list, x ≤ md) := by
  constructor
  · intro s bt bd hmem
    exact vrSimplexList_spec n time d mt md mdim hd h0 (s, bt, bd) hmem
  · intro x hx
    have hdl : (build_VR_complex n time d mt md mdim v).dist_list =
        sortDedup ((vrSimplexList n time d mt md mdim).map (fun y => y.2.2)) := by
      show (update_global_indexes ((vrSimplexList n time d mt md mdim).foldl
          (fun T x => add_simplex x.1
            (idxSentinel (sortDedup ((vrSimplexList n time d mt md mdim).map (fun y => y.2.1)))
              x.2.1)
            (idxSentinel (sortDedup ((vrSimplexList n time d mt md mdim).map (fun y => y.2.2)))
              x.2.2) T)
          ⟨[], sortDedup ((vrSimplexList n time d mt md mdim).map (fun y => y.2.2)),
            sortDedup ((vrSimplexList n time d mt md mdim).map (fun y => y.2.1)), false, v⟩)).dist_list
        = sortDedup ((vrSimplexList n time d mt md mdim).map (fun y => y.2.2))
      rw [show ∀ T : SimplexTree, (update_global_indexes T).dist_list = T.dist_list
        from fun T => rfl]
      rw [foldl_add_simplex_dist_list]
    rw [hdl] at hx
    rcases List.mem_map.mp (mem_sortDedup.mp hx) with ⟨y, hy, hyx⟩
    rw [← hyx]
    exact (vrSimplexList_spec n time d mt md mdim hd h0 y hy).2.2.2

/-- The triangle scenario's distance source is non-negative. -/
theorem triDist_nonneg : ∀ i j, 0 ≤ triDist i j := by
  intro i j
  unfold triDist
  split_ifs <;> decide

/-- Witness for C9: on the triangle scenario, the edge `{1, 2}` is produced
with birth exactly `(0, 1.4)` within the bounds, and every registered
distance is at most `1.5`. -/
theorem C9_builder_birth_and_clamp_witness :
    ((0 : Rat) = maxTimeOf (fun _ => 0) [1, 2] ∧ mkRat 7 5 = maxPairDist triDist [1, 2] ∧
      (0 : Rat) ≤ 0 ∧ mkRat 7 5 ≤ mkRat 3 2) ∧
    ∀ x ∈ triTree.dist_list, x ≤ mkRat 3 2 :=
  ⟨(C9_builder_birth_and_clamp 3 (fun _ => 0) triDist 0 (mkRat 3 2) 2 0 triDist_nonneg
      (by decide)).1 [1, 2] 0 (mkRat 7 5) (by decide),
   (C9_builder_birth_and_clamp 3 (fun _ => 0) triDist 0 (mkRat 3 2) 2 0 triDist_nonneg
      (by decide)).2⟩

end Rivet
